import Mathlib

/-!
# Alpaca: verification of the spec's claims against the source

Shallow embedding of `src/main.rs` of the Alpaca file-encryption tool:
the file-name transition rules of `encrypt` / `decrypt`, the credential
decoding performed at the top of `decrypt`, the root-resolution and
dispatch logic of the `LoadSchematic` batch branch of `main`, and a
spec-modelled Codec (the compression itself lives in the external
`flate2` crate, not in this repository).

File names are modelled as `List Char` (the final path component).
Paths are modelled as an absoluteness flag plus a component list,
mirroring `std::path::PathBuf` join semantics. Bytes are `Nat`.
-/

namespace Alpaca

/-! ## Rust `Path` file-name semantics

`Path::extension` / `file_stem` / `with_extension` operate on the final
component: the name is split at its LAST `.`; if the part before that
dot is empty (a leading-dot name such as `.gitignore`, or no dot at
all) there is no extension and the stem is the whole name.
-/

/-- Split a file name at its last `.`: `some (before, after)`, or `none`
when the name contains no dot. -/
def rsplitDot : List Char → Option (List Char × List Char)
  | [] => none
  | c :: cs =>
    match rsplitDot cs with
    | some (b, a) => some (c :: b, a)
    | none => if c = '.' then some ([], cs) else none

/-- Rust `Path::extension` on a file name: the part after the last dot,
`none` when there is no dot or the only dot is the leading character. -/
def extension (s : List Char) : Option (List Char) :=
  match rsplitDot s with
  | some (b, a) => if b = [] then none else some a
  | none => none

/-- Rust `Path::file_stem` on a file name: the part before the last dot,
or the whole name when `extension` is `none`. -/
def fileStem (s : List Char) : List Char :=
  match rsplitDot s with
  | some (b, _) => if b = [] then s else b
  | none => s

/-- Rust `Path::with_extension` on a file name: the stem, followed by
`.` and the new extension when that extension is nonempty. -/
def withExtension (s e : List Char) : List Char :=
  if e = [] then fileStem s else fileStem s ++ '.' :: e

/-- A proper file name: nonempty, not the `.` or `..` path components
(for which Rust's `file_name` is `none` and `set_extension` is a no-op),
and a single component (no separator). -/
def validFileName (s : List Char) : Prop :=
  s ≠ [] ∧ s ≠ ['.'] ∧ s ≠ ['.', '.'] ∧ '/' ∉ s

instance (s : List Char) : Decidable (validFileName s) := by
  unfold validFileName; infer_instance

/-! ## File transitions (`encrypt` lines 108-118, `decrypt` lines 136-146) -/

/-- New file name computed by `encrypt`: if the name has an extension
`ext`, `with_extension` of `ext ++ ".alp"`; otherwise `with_extension`
of `"alp"`. The file is renamed to this name and the artifact written
there. -/
def applyEncryptTransition (s : List Char) : List Char :=
  match extension s with
  | some ext => withExtension s (ext ++ ('.' :: ['a', 'l', 'p']))
  | none => withExtension s ['a', 'l', 'p']

/-- What `decrypt` does to the file after obtaining the plaintext. -/
inductive DecryptFileAction where
  | renameAndWrite (newName : List Char)
  | writeInPlace
  | noWrite
  deriving DecidableEq, Repr

/-- File logic of `decrypt`: when the extension is exactly `alp`, rename
to `with_extension("")` and write the plaintext there; when there is no
extension, write the plaintext in place; when the extension exists but
is not `alp`, neither branch runs and nothing is written. -/
def applyDecryptTransition (s : List Char) : DecryptFileAction :=
  match extension s with
  | some ext =>
    if ext = ['a', 'l', 'p'] then
      .renameAndWrite (withExtension s [])
    else
      .noWrite
  | none => .writeInPlace

/-! ### Lemmas about the file-name split -/

theorem rsplitDot_eq (s b a : List Char) (h : rsplitDot s = some (b, a)) :
    s = b ++ '.' :: a := by
  induction s generalizing b a with
  | nil => simp [rsplitDot] at h
  | cons c cs ih =>
    simp only [rsplitDot] at h
    cases hcs : rsplitDot cs with
    | some p =>
      obtain ⟨b', a'⟩ := p
      rw [hcs] at h
      simp only [Option.some.injEq, Prod.mk.injEq] at h
      obtain ⟨hb, ha⟩ := h
      rw [← hb, ← ha]
      simpa using ih b' a' hcs
    | none =>
      rw [hcs] at h
      by_cases hc : c = '.'
      · rw [if_pos hc] at h
        simp only [Option.some.injEq, Prod.mk.injEq] at h
        obtain ⟨hb, ha⟩ := h
        rw [← hb, ← ha]
        simp [hc]
      · simp [hc] at h

theorem rsplitDot_eq_none_iff (s : List Char) : rsplitDot s = none ↔ '.' ∉ s := by
  induction s with
  | nil => simp [rsplitDot]
  | cons c cs ih =>
    simp only [rsplitDot]
    cases hcs : rsplitDot cs with
    | some p =>
      obtain ⟨b, a⟩ := p
      have hmem : '.' ∈ cs := by
        by_contra hn
        rw [← ih] at hn
        simp [hn] at hcs
      simp [hmem]
    | none =>
      by_cases hc : c = '.'
      · simp [hc]
      · have h2 := ih.mp hcs
        simp only [if_neg hc, List.mem_cons, not_or]
        constructor
        · intro _
          exact ⟨fun h => hc h.symm, h2⟩
        · intro _
          trivial

/-- When the suffix after a dot contains no further dot, that dot is
the last one. -/
theorem rsplitDot_append (s a : List Char) (ha : '.' ∉ a) :
    rsplitDot (s ++ '.' :: a) = some (s, a) := by
  induction s with
  | nil =>
    simp only [List.nil_append, rsplitDot]
    rw [(rsplitDot_eq_none_iff a).mpr ha]
    simp
  | cons c cs ih =>
    simp only [List.cons_append, rsplitDot, List.append_eq]
    rw [ih]

/-- Encrypting always appends the four characters `.alp` to the name. -/
theorem applyEncryptTransition_eq_append (s : List Char) :
    applyEncryptTransition s = s ++ '.' :: ['a', 'l', 'p'] := by
  cases h : rsplitDot s with
  | some p =>
    obtain ⟨b, a⟩ := p
    by_cases hb : b = []
    · subst hb
      have hs := rsplitDot_eq s [] a h
      simp only [List.nil_append] at hs
      simp [applyEncryptTransition, extension, fileStem, withExtension, h]
    · have hs := rsplitDot_eq s b a h
      simp only [applyEncryptTransition, extension, fileStem, withExtension, h,
        if_neg hb]
      rw [if_neg (by simp), hs]
      simp
  | none =>
    simp [applyEncryptTransition, extension, fileStem, withExtension, h]

theorem extension_append_alp (s : List Char) (hs : s ≠ []) :
    extension (s ++ '.' :: ['a', 'l', 'p']) = some ['a', 'l', 'p'] := by
  unfold extension
  rw [rsplitDot_append s ['a', 'l', 'p'] (by decide)]
  simp [hs]

theorem fileStem_append_alp (s : List Char) (hs : s ≠ []) :
    fileStem (s ++ '.' :: ['a', 'l', 'p']) = s := by
  unfold fileStem
  rw [rsplitDot_append s ['a', 'l', 'p'] (by decide)]
  simp [hs]

/-! ## Claims C4 and C1: the extension rules -/

/-- C4. Encrypt renames by appending `.alp`: a name with extension `E`
gains the suffix `.alp` after `E` (`report.csv` to `report.csv.alp`), a
name without extension gains the extension `alp` (`README` to
`README.alp`); the new name's extension is exactly `alp`, and the
decrypt transition on the new name renames back to the original name. -/
theorem encrypt_extension_rule (s : List Char) (hs : validFileName s) :
    applyEncryptTransition s = s ++ '.' :: ['a', 'l', 'p'] ∧
    extension (applyEncryptTransition s) = some ['a', 'l', 'p'] ∧
    applyDecryptTransition (applyEncryptTransition s) =
      .renameAndWrite s := by
  obtain ⟨hne, -, -, -⟩ := hs
  rw [applyEncryptTransition_eq_append]
  refine ⟨rfl, extension_append_alp s hne, ?_⟩
  unfold applyDecryptTransition
  rw [extension_append_alp s hne]
  simp [withExtension, fileStem_append_alp s hne]

/-- Witness for `encrypt_extension_rule` at the file name `report.csv`. -/
theorem encrypt_extension_rule_witness :
    validFileName ("report.csv".toList) ∧
    (applyEncryptTransition ("report.csv".toList) =
        "report.csv".toList ++ '.' :: ['a', 'l', 'p'] ∧
      extension (applyEncryptTransition ("report.csv".toList)) =
        some ['a', 'l', 'p'] ∧
      applyDecryptTransition (applyEncryptTransition ("report.csv".toList)) =
        .renameAndWrite ("report.csv".toList)) :=
  ⟨by decide, encrypt_extension_rule ("report.csv".toList) (by decide)⟩

/-- C1 counterexample: decrypting a file whose extension exists but is
not `alp` (here `data.txt`) writes nothing at all — in particular the
plaintext is NOT written in place as the claim states. -/
theorem decrypt_nonalp_not_written_in_place :
    applyDecryptTransition ("data.txt".toList) = .noWrite ∧
    applyDecryptTransition ("data.txt".toList) ≠ .writeInPlace := by
  refine ⟨by decide, ?_⟩
  decide

/-- C1 as amended. Decrypt: a name with extension exactly `alp` is
renamed to its stem (the `.alp` suffix stripped) and the plaintext
written there; a name with no extension has the plaintext written in
place; a name whose extension exists but differs from `alp` gets no
rename and no write (the plaintext is discarded). -/
theorem decrypt_transition_cases (s : List Char) :
    (extension s = some ['a', 'l', 'p'] →
      applyDecryptTransition s = .renameAndWrite (fileStem s)) ∧
    (extension s = none → applyDecryptTransition s = .writeInPlace) ∧
    (∀ e, extension s = some e → e ≠ ['a', 'l', 'p'] →
      applyDecryptTransition s = .noWrite) := by
  refine ⟨fun h => ?_, fun h => ?_, fun e he hne => ?_⟩
  · unfold applyDecryptTransition
    rw [h]
    simp [withExtension]
  · unfold applyDecryptTransition
    rw [h]
  · unfold applyDecryptTransition
    rw [he]
    simp [hne]

/-- Witness for `decrypt_transition_cases` at the name `archive.alp`. -/
theorem decrypt_transition_cases_witness :
    extension ("archive.alp".toList) = some ['a', 'l', 'p'] ∧
    applyDecryptTransition ("archive.alp".toList) =
      .renameAndWrite (fileStem ("archive.alp".toList)) :=
  ⟨by decide, (decrypt_transition_cases ("archive.alp".toList)).1 (by decide)⟩

/-! ## Credential decoding (`decrypt` lines 122-127)

`decrypt` does `key.split('#')`, indexes `creds[0]` and `creds[1]`,
hex-decodes both with `.expect`, builds the nonce with
`Nonce::from_slice` (which panics when the slice is not 12 bytes), and
initializes the cipher with `Aes128Gcm::new_from_slice` (which errors
when the key is not 16 bytes).
-/

/-- Rust `str::split('#')` collected to a vector: every `#` splits,
empty segments are kept, and the result is never empty. -/
def splitHash : List Char → List (List Char)
  | [] => [[]]
  | c :: cs =>
    match splitHash cs with
    | [] => [[]]
    | h :: t => if c = '#' then [] :: h :: t else (c :: h) :: t

/-- Decoded value of one hex digit, following `hex::decode`. -/
def hexDigitVal (c : Char) : Option Nat :=
  if '0' ≤ c ∧ c ≤ '9' then some (c.toNat - 48)
  else if 'a' ≤ c ∧ c ≤ 'f' then some (c.toNat - 87)
  else if 'A' ≤ c ∧ c ≤ 'F' then some (c.toNat - 55)
  else none

/-- Rust `hex::decode`: pairs of hex digits to bytes; odd length or a
non-hex character is an error. -/
def hexDecode : List Char → Option (List Nat)
  | [] => some []
  | [_] => none
  | a :: b :: rest =>
    match hexDigitVal a, hexDigitVal b, hexDecode rest with
    | some hi, some lo, some t => some ((16 * hi + lo) :: t)
    | _, _, _ => none

/-- Outcome of the credential-handling prefix of `decrypt`, in program
order: `creds[1]` out-of-bounds indexing panic, `expect` panic on a
non-hex key half, `expect` panic on a non-hex nonce half,
`Nonce::from_slice` length panic, `new_from_slice` cipher-init error,
or a validated 16-byte key and 12-byte nonce. -/
inductive DecryptCredResult where
  | ok (key nonce : List Nat)
  | indexOutOfBounds
  | malformedKey
  | malformedNonce
  | nonceLengthPanic
  | cipherInitError
  deriving DecidableEq, Repr

/-- The failure kinds that are well-defined credential-format failures,
as opposed to the out-of-bounds index panic. -/
def DecryptCredResult.isFormatError : DecryptCredResult → Bool
  | .malformedKey => true
  | .malformedNonce => true
  | .nonceLengthPanic => true
  | .cipherInitError => true
  | _ => false

/-- Credential handling of `decrypt` (lines 122-127), in program order:
split on `#`; hex-decode segment 0 (panic on failure); index segment 1
(out-of-bounds panic when there is no `#`); hex-decode it (panic on
failure); build the nonce (panic unless 12 bytes); initialize the
cipher (error unless the key is 16 bytes). -/
def decodeAndInit (cred : List Char) : DecryptCredResult :=
  match splitHash cred with
  | [] => .indexOutOfBounds
  | c0 :: rest =>
    match hexDecode c0 with
    | none => .malformedKey
    | some key =>
      match rest with
      | [] => .indexOutOfBounds
      | c1 :: _ =>
        match hexDecode c1 with
        | none => .malformedNonce
        | some nonce =>
          if nonce.length = 12 then
            if key.length = 16 then .ok key nonce
            else .cipherInitError
          else .nonceLengthPanic

theorem splitHash_ne_nil (s : List Char) : splitHash s ≠ [] := by
  cases s with
  | nil => simp [splitHash]
  | cons c cs =>
    simp only [splitHash]
    cases splitHash cs with
    | nil => simp
    | cons h t =>
      by_cases hc : c = '#' <;> simp [hc]

theorem splitHash_no_hash (s : List Char) (h : '#' ∉ s) :
    splitHash s = [s] := by
  induction s with
  | nil => rfl
  | cons c cs ih =>
    simp only [List.mem_cons, not_or] at h
    simp only [splitHash, ih h.2]
    simp [Ne.symm h.1]

theorem splitHash_append (a rest : List Char) (ha : '#' ∉ a) :
    splitHash (a ++ '#' :: rest) = a :: splitHash rest := by
  induction a with
  | nil =>
    simp only [List.nil_append, splitHash]
    cases hr : splitHash rest with
    | nil => exact absurd hr (splitHash_ne_nil rest)
    | cons h t => simp
  | cons c cs ih =>
    simp only [List.mem_cons, not_or] at ha
    simp only [List.cons_append, splitHash, List.append_eq]
    rw [ih ha.2]
    simp [Ne.symm ha.1]

/-! ## Claims C2 and C9: credential decoding -/

/-- C2 counterexample: a credential with no `#` delimiter (here a valid
32-hex-digit key with the delimiter and nonce missing) fails by an
out-of-bounds index on `creds[1]`, which is exactly the failure kind
the claim rules out, and is not one of the credential-format errors. -/
theorem missing_delimiter_is_out_of_bounds :
    decodeAndInit ("00112233445566778899aabbccddeeff".toList) =
      .indexOutOfBounds ∧
    DecryptCredResult.isFormatError
      (decodeAndInit ("00112233445566778899aabbccddeeff".toList)) = false := by
  refine ⟨by decide, by decide⟩

/-- C2 as amended. With the `#` delimiter present, a non-hex key half
fails as a malformed key, a non-hex nonce half as a malformed nonce, a
decoded nonce that is not 12 bytes panics at nonce construction, a
decoded key that is not 16 bytes fails cipher initialization, and
correct lengths decode successfully; with the delimiter missing, the
failure is the out-of-bounds `creds[1]` index when the single segment
is valid hex, and the malformed-key failure otherwise. -/
theorem decode_credential_cases (a b : List Char)
    (ha : '#' ∉ a) (hb : '#' ∉ b) :
    (hexDecode a = none → decodeAndInit (a ++ '#' :: b) = .malformedKey) ∧
    (∀ key, hexDecode a = some key → hexDecode b = none →
      decodeAndInit (a ++ '#' :: b) = .malformedNonce) ∧
    (∀ key nonce, hexDecode a = some key → hexDecode b = some nonce →
      nonce.length ≠ 12 →
      decodeAndInit (a ++ '#' :: b) = .nonceLengthPanic) ∧
    (∀ key nonce, hexDecode a = some key → hexDecode b = some nonce →
      nonce.length = 12 → key.length ≠ 16 →
      decodeAndInit (a ++ '#' :: b) = .cipherInitError) ∧
    (∀ key nonce, hexDecode a = some key → hexDecode b = some nonce →
      nonce.length = 12 → key.length = 16 →
      decodeAndInit (a ++ '#' :: b) = .ok key nonce) ∧
    (hexDecode a = none → decodeAndInit a = .malformedKey) ∧
    (∀ key, hexDecode a = some key → decodeAndInit a = .indexOutOfBounds) := by
  have hsplit : splitHash (a ++ '#' :: b) = a :: [b] := by
    rw [splitHash_append a b ha, splitHash_no_hash b hb]
  have hsingle : splitHash a = [a] := splitHash_no_hash a ha
  refine ⟨?_, ?_, ?_, ?_, ?_, ?_, ?_⟩
  · intro h
    simp [decodeAndInit, hsplit, h]
  · intro key hk hn
    simp [decodeAndInit, hsplit, hk, hn]
  · intro key nonce hk hn hlen
    simp [decodeAndInit, hsplit, hk, hn, hlen]
  · intro key nonce hk hn hlen hklen
    simp [decodeAndInit, hsplit, hk, hn, hlen, hklen]
  · intro key nonce hk hn hlen hklen
    simp [decodeAndInit, hsplit, hk, hn, hlen, hklen]
  · intro h
    simp [decodeAndInit, hsingle, h]
  · intro key hk
    simp [decodeAndInit, hsingle, hk]

/-- Witness for `decode_credential_cases`: a well-formed credential of
16 key bytes and 12 nonce bytes decodes successfully. -/
theorem decode_credential_cases_witness :
    '#' ∉ "00112233445566778899aabbccddeeff".toList ∧
    '#' ∉ "aabbccddeeff001122334455".toList ∧
    decodeAndInit ("00112233445566778899aabbccddeeff".toList ++ '#' ::
        "aabbccddeeff001122334455".toList) =
      .ok [0x00, 0x11, 0x22, 0x33, 0x44, 0x55, 0x66, 0x77,
           0x88, 0x99, 0xaa, 0xbb, 0xcc, 0xdd, 0xee, 0xff]
          [0xaa, 0xbb, 0xcc, 0xdd, 0xee, 0xff, 0x00, 0x11,
           0x22, 0x33, 0x44, 0x55] := by
  refine ⟨by decide, by decide, ?_⟩
  exact (decode_credential_cases _ _ (by decide) (by decide)).2.2.2.2.1
    _ _ (by decide) (by decide) (by decide) (by decide)

/-- C9. Segments after the second `#`-separated one are ignored: a
credential `a#b#t` (any trailing `t`, which may itself contain further
`#`s) is handled exactly as `a#b`. -/
theorem extra_segments_ignored (a b t : List Char)
    (ha : '#' ∉ a) (hb : '#' ∉ b) :
    decodeAndInit (a ++ '#' :: (b ++ '#' :: t)) =
      decodeAndInit (a ++ '#' :: b) := by
  unfold decodeAndInit
  rw [splitHash_append a _ ha, splitHash_append b t hb,
    splitHash_append a b ha, splitHash_no_hash b hb]

/-- Witness for `extra_segments_ignored` at the credential
`00#ff#garbage`. -/
theorem extra_segments_ignored_witness :
    '#' ∉ "00".toList ∧ '#' ∉ "ff".toList ∧
    decodeAndInit ("00".toList ++ '#' ::
        ("ff".toList ++ '#' :: "garbage".toList)) =
      decodeAndInit ("00".toList ++ '#' :: "ff".toList) :=
  ⟨by decide, by decide,
    extra_segments_ignored "00".toList "ff".toList "garbage".toList
      (by decide) (by decide)⟩

/-! ## Paths, host environment, and the batch processor
(`main`, `LoadSchematic` arm, lines 182-290) -/

/-- Model of `std::path::PathBuf`: an absoluteness flag plus the list
of components. -/
structure FsPath where
  absolute : Bool
  components : List (List Char)
  deriving DecidableEq, Repr

/-- `PathBuf::join`: an absolute argument replaces the base entirely,
a relative argument appends its components to the base. -/
def joinPath (base p : FsPath) : FsPath :=
  if p.absolute then p
  else ⟨base.absolute, base.components ++ p.components⟩

/-- Base directories supplied by the host (`dirs::home_dir`,
`dirs::config_dir`, `dirs::cache_dir`, `std::env::temp_dir`), plus the
current working directory, which the batch processor never consults. -/
structure HostEnv where
  homeDir : Option FsPath
  configDir : Option FsPath
  cacheDir : Option FsPath
  tempDir : FsPath
  cwd : FsPath
  deriving DecidableEq, Repr

/-- The same host environment with a different working directory. -/
def setCwd (env : HostEnv) (c : FsPath) : HostEnv :=
  ⟨env.homeDir, env.configDir, env.cacheDir, env.tempDir, c⟩

/-- ASCII uppercasing; `str::to_uppercase` restricted to the ASCII
range, which covers every token the batch processor compares against. -/
def upperChar (c : Char) : Char :=
  if 'a' ≤ c ∧ c ≤ 'z' then Char.ofNat (c.toNat - 32) else c

/-- `str::to_uppercase` on a token, character by character. -/
def asciiUpper (s : List Char) : List Char := s.map upperChar

/-- A manifest entry (`struct Schematic`): an `action`, an optional
`root` token, an optional `key` (the credential), and a `filepath`. -/
structure Schematic where
  action : List Char
  root : Option (List Char)
  key : Option (List Char)
  filepath : FsPath
  deriving DecidableEq, Repr

/-- Root resolution as written in the `"ENCRYPT"` arm (lines 195-229):
`none` models the arm's `return` (entry skipped) when the host cannot
supply the requested directory. -/
def resolveRootEncrypt (env : HostEnv) (root : Option (List Char))
    (filepath : FsPath) : Option FsPath :=
  match root with
  | none => some filepath
  | some r =>
    if asciiUpper r = "HOME".toList then
      match env.homeDir with
      | some home => some (joinPath home filepath)
      | none => none
    else if asciiUpper r = "CONFIG".toList ∨ asciiUpper r = "ROAMING".toList then
      match env.configDir with
      | some config => some (joinPath config filepath)
      | none => none
    else if asciiUpper r = "CACHE".toList ∨ asciiUpper r = "LOCAL".toList then
      match env.cacheDir with
      | some cache => some (joinPath cache filepath)
      | none => none
    else if asciiUpper r = "TEMP".toList ∨ asciiUpper r = "TMP".toList then
      some (joinPath env.tempDir filepath)
    else
      some filepath

/-- Root resolution as written, a second time, in the `"DECRYPT"` arm
(lines 243-277); the source duplicates the block verbatim. -/
def resolveRootDecrypt (env : HostEnv) (root : Option (List Char))
    (filepath : FsPath) : Option FsPath :=
  match root with
  | none => some filepath
  | some r =>
    if asciiUpper r = "HOME".toList then
      match env.homeDir with
      | some home => some (joinPath home filepath)
      | none => none
    else if asciiUpper r = "CONFIG".toList ∨ asciiUpper r = "ROAMING".toList then
      match env.configDir with
      | some config => some (joinPath config filepath)
      | none => none
    else if asciiUpper r = "CACHE".toList ∨ asciiUpper r = "LOCAL".toList then
      match env.cacheDir with
      | some cache => some (joinPath cache filepath)
      | none => none
    else if asciiUpper r = "TEMP".toList ∨ asciiUpper r = "TMP".toList then
      some (joinPath env.tempDir filepath)
    else
      some filepath

/-- Per-entry control path taken by the batch closure. File reads and
writes, compression and the AEAD itself are modelled as succeeding; the
outcome records which branch the closure took and with which data. -/
inductive EntryOutcome where
  | encrypted (path : FsPath)
  | decrypted (path : FsPath) (key nonce : List Nat)
  | skippedNoRootDir
  | skippedNoCredential
  | unknownAction
  deriving DecidableEq, Repr

/-- Result of running the closure on one entry: a normal outcome, or a
panic escaping the closure — `decrypt`'s credential handling panics on
every non-`ok` decode, and the source has no `catch_unwind`. -/
inductive EntryResult where
  | ok (o : EntryOutcome)
  | panicked (e : DecryptCredResult)
  deriving DecidableEq, Repr

/-- The closure the batch processor runs on each entry: match on the
uppercased action; resolve the root (skip when unavailable); for
DECRYPT, skip when the credential is absent, panic when it is
malformed; otherwise dispatch the operation. -/
def processEntry (env : HostEnv) (s : Schematic) : EntryResult :=
  if asciiUpper s.action = "ENCRYPT".toList then
    match resolveRootEncrypt env s.root s.filepath with
    | none => .ok .skippedNoRootDir
    | some p => .ok (.encrypted p)
  else if asciiUpper s.action = "DECRYPT".toList then
    match resolveRootDecrypt env s.root s.filepath with
    | none => .ok .skippedNoRootDir
    | some p =>
      match s.key with
      | none => .ok .skippedNoCredential
      | some k =>
        match decodeAndInit k with
        | .ok key nonce => .ok (.decrypted p key nonce)
        | r => .panicked r
  else
    .ok .unknownAction

/-- `schematics.par_iter().for_each(...)` under one admissible rayon
schedule (a single worker taking entries in order). A panic in the
closure trips rayon's panic fuse: entries not yet started are never
processed (`none`) and the panic propagates to the caller. -/
def runBatchFused (env : HostEnv) :
    List Schematic → List (Option EntryResult)
  | [] => []
  | s :: rest =>
    match processEntry env s with
    | .ok o => some (.ok o) :: runBatchFused env rest
    | .panicked e => some (.panicked e) :: rest.map (fun _ => none)

/-! ## Claims C10, C7, C8, C6, C3: the batch processor -/

/-- C10. The root-resolution block duplicated in the ENCRYPT and
DECRYPT arms computes the same function: same token-to-directory
mapping, same join, same skip condition. -/
theorem root_resolution_branches_equal (env : HostEnv)
    (root : Option (List Char)) (filepath : FsPath) :
    resolveRootEncrypt env root filepath =
      resolveRootDecrypt env root filepath := by
  cases root <;> rfl

/-- C7. Root tokens map case-insensitively to base directories: HOME to
the home directory, CONFIG/ROAMING to the configuration directory,
CACHE/LOCAL to the cache directory, TEMP/TMP to the temporary
directory, each joined with the entry's filepath; an absent or
unrecognized root leaves the filepath as-is; and resolution is
independent of the current working directory. -/
theorem root_token_mapping (env : HostEnv) (r : List Char)
    (filepath : FsPath) :
    (asciiUpper r = "HOME".toList →
      resolveRootEncrypt env (some r) filepath =
        Option.map (fun d => joinPath d filepath) env.homeDir) ∧
    (asciiUpper r = "CONFIG".toList ∨ asciiUpper r = "ROAMING".toList →
      resolveRootEncrypt env (some r) filepath =
        Option.map (fun d => joinPath d filepath) env.configDir) ∧
    (asciiUpper r = "CACHE".toList ∨ asciiUpper r = "LOCAL".toList →
      resolveRootEncrypt env (some r) filepath =
        Option.map (fun d => joinPath d filepath) env.cacheDir) ∧
    (asciiUpper r = "TEMP".toList ∨ asciiUpper r = "TMP".toList →
      resolveRootEncrypt env (some r) filepath =
        some (joinPath env.tempDir filepath)) ∧
    (resolveRootEncrypt env none filepath = some filepath) ∧
    (asciiUpper r ≠ "HOME".toList → asciiUpper r ≠ "CONFIG".toList →
      asciiUpper r ≠ "ROAMING".toList → asciiUpper r ≠ "CACHE".toList →
      asciiUpper r ≠ "LOCAL".toList → asciiUpper r ≠ "TEMP".toList →
      asciiUpper r ≠ "TMP".toList →
      resolveRootEncrypt env (some r) filepath = some filepath) ∧
    (∀ c ro, resolveRootEncrypt (setCwd env c) ro filepath =
      resolveRootEncrypt env ro filepath) := by
  refine ⟨?_, ?_, ?_, ?_, rfl, ?_, ?_⟩
  · intro h
    simp only [resolveRootEncrypt, h, if_pos rfl]
    cases env.homeDir <;> rfl
  · intro h
    have h1 : asciiUpper r ≠ "HOME".toList := by
      rcases h with h | h <;> rw [h] <;> decide
    simp only [resolveRootEncrypt, if_neg h1, if_pos h]
    cases env.configDir <;> rfl
  · intro h
    have h1 : asciiUpper r ≠ "HOME".toList := by
      rcases h with h | h <;> rw [h] <;> decide
    have h2 : ¬(asciiUpper r = "CONFIG".toList ∨
        asciiUpper r = "ROAMING".toList) := by
      rcases h with h | h <;> rw [h] <;> decide
    simp only [resolveRootEncrypt, if_neg h1, if_neg h2, if_pos h]
    cases env.cacheDir <;> rfl
  · intro h
    have h1 : asciiUpper r ≠ "HOME".toList := by
      rcases h with h | h <;> rw [h] <;> decide
    have h2 : ¬(asciiUpper r = "CONFIG".toList ∨
        asciiUpper r = "ROAMING".toList) := by
      rcases h with h | h <;> rw [h] <;> decide
    have h3 : ¬(asciiUpper r = "CACHE".toList ∨
        asciiUpper r = "LOCAL".toList) := by
      rcases h with h | h <;> rw [h] <;> decide
    simp only [resolveRootEncrypt, if_neg h1, if_neg h2, if_neg h3, if_pos h]
  · intro h1 h2 h3 h4 h5 h6 h7
    simp only [resolveRootEncrypt, if_neg h1]
    rw [if_neg (not_or.mpr ⟨h2, h3⟩), if_neg (not_or.mpr ⟨h4, h5⟩),
      if_neg (not_or.mpr ⟨h6, h7⟩)]
  · intro c ro
    cases ro <;> simp [resolveRootEncrypt, setCwd]

/-- Witness for `root_token_mapping`: the token `Temp` (mixed case)
with the relative filepath `x.txt` resolves to the temp dir joined
with `x.txt`, in a concrete host environment. -/
theorem root_token_mapping_witness :
    (asciiUpper "Temp".toList = "TEMP".toList ∨
      asciiUpper "Temp".toList = "TMP".toList) ∧
    resolveRootEncrypt
        ⟨some ⟨true, ["home".toList]⟩, some ⟨true, ["cfg".toList]⟩,
         some ⟨true, ["cache".toList]⟩, ⟨true, ["tmp".toList]⟩,
         ⟨true, ["work".toList]⟩⟩
        (some "Temp".toList) ⟨false, ["x.txt".toList]⟩ =
      some (joinPath ⟨true, ["tmp".toList]⟩ ⟨false, ["x.txt".toList]⟩) :=
  ⟨Or.inl (by decide),
    (root_token_mapping
        ⟨some ⟨true, ["home".toList]⟩, some ⟨true, ["cfg".toList]⟩,
         some ⟨true, ["cache".toList]⟩, ⟨true, ["tmp".toList]⟩,
         ⟨true, ["work".toList]⟩⟩
        "Temp".toList ⟨false, ["x.txt".toList]⟩).2.2.2.1
      (Or.inl (by decide))⟩

/-- C8. An entry whose uppercased action is neither ENCRYPT nor DECRYPT
is reported as an unrecognized action, does not panic, and the rest of
the batch is processed exactly as it would be without it. -/
theorem unknown_action_does_not_stop_batch (env : HostEnv)
    (s : Schematic) (rest : List Schematic)
    (h1 : asciiUpper s.action ≠ "ENCRYPT".toList)
    (h2 : asciiUpper s.action ≠ "DECRYPT".toList) :
    processEntry env s = .ok .unknownAction ∧
    runBatchFused env (s :: rest) =
      some (.ok .unknownAction) :: runBatchFused env rest := by
  have hp : processEntry env s = .ok .unknownAction := by
    simp only [processEntry, if_neg h1, if_neg h2]
  refine ⟨hp, ?_⟩
  simp only [runBatchFused]
  rw [hp]

/-- Witness for `unknown_action_does_not_stop_batch` at an entry with
action `FOO`. -/
theorem unknown_action_witness :
    (asciiUpper "FOO".toList ≠ "ENCRYPT".toList ∧
      asciiUpper "FOO".toList ≠ "DECRYPT".toList) ∧
    processEntry
        ⟨none, none, none, ⟨true, ["tmp".toList]⟩, ⟨true, ["work".toList]⟩⟩
        ⟨"FOO".toList, none, none, ⟨false, ["x".toList]⟩⟩ =
      .ok .unknownAction :=
  ⟨⟨by decide, by decide⟩,
    (unknown_action_does_not_stop_batch
      ⟨none, none, none, ⟨true, ["tmp".toList]⟩, ⟨true, ["work".toList]⟩⟩
      ⟨"FOO".toList, none, none, ⟨false, ["x".toList]⟩⟩ []
      (by decide) (by decide)).1⟩

/-- C6. A DECRYPT entry with no credential is skipped — no decryption
is attempted and no panic is raised (when its root is also unavailable
it is skipped for that reason instead) — and the rest of the batch is
processed exactly as it would be without it. -/
theorem missing_credential_skipped (env : HostEnv) (s : Schematic)
    (rest : List Schematic)
    (hact : asciiUpper s.action = "DECRYPT".toList)
    (hkey : s.key = none) :
    (processEntry env s = .ok .skippedNoCredential ∨
      processEntry env s = .ok .skippedNoRootDir) ∧
    runBatchFused env (s :: rest) =
      some (processEntry env s) :: runBatchFused env rest := by
  have hne : asciiUpper s.action ≠ "ENCRYPT".toList := by
    rw [hact]; decide
  have hp : processEntry env s = .ok .skippedNoCredential ∨
      processEntry env s = .ok .skippedNoRootDir := by
    simp only [processEntry, if_neg hne, if_pos hact]
    cases resolveRootDecrypt env s.root s.filepath with
    | none => exact Or.inr rfl
    | some p =>
      rw [hkey]
      exact Or.inl rfl
  refine ⟨hp, ?_⟩
  rcases hp with h | h <;>
    · simp only [runBatchFused]
      rw [h]

/-- Witness for `missing_credential_skipped`: a DECRYPT entry with no
credential followed by one more entry; the second entry still runs. -/
theorem missing_credential_skipped_witness :
    (asciiUpper "Decrypt".toList = "DECRYPT".toList ∧
      (Schematic.mk "Decrypt".toList none none
        ⟨false, ["b.alp".toList]⟩).key = none) ∧
    ((processEntry
        ⟨none, none, none, ⟨true, ["tmp".toList]⟩, ⟨true, ["work".toList]⟩⟩
        ⟨"Decrypt".toList, none, none, ⟨false, ["b.alp".toList]⟩⟩ =
          .ok .skippedNoCredential ∨
      processEntry
        ⟨none, none, none, ⟨true, ["tmp".toList]⟩, ⟨true, ["work".toList]⟩⟩
        ⟨"Decrypt".toList, none, none, ⟨false, ["b.alp".toList]⟩⟩ =
          .ok .skippedNoRootDir) ∧
    runBatchFused
        ⟨none, none, none, ⟨true, ["tmp".toList]⟩, ⟨true, ["work".toList]⟩⟩
        (⟨"Decrypt".toList, none, none, ⟨false, ["b.alp".toList]⟩⟩ ::
          [⟨"FOO".toList, none, none, ⟨false, ["x".toList]⟩⟩]) =
      some (processEntry
        ⟨none, none, none, ⟨true, ["tmp".toList]⟩, ⟨true, ["work".toList]⟩⟩
        ⟨"Decrypt".toList, none, none, ⟨false, ["b.alp".toList]⟩⟩) ::
        runBatchFused
          ⟨none, none, none, ⟨true, ["tmp".toList]⟩, ⟨true, ["work".toList]⟩⟩
          [⟨"FOO".toList, none, none, ⟨false, ["x".toList]⟩⟩]) :=
  ⟨⟨by decide, rfl⟩,
    missing_credential_skipped
      ⟨none, none, none, ⟨true, ["tmp".toList]⟩, ⟨true, ["work".toList]⟩⟩
      ⟨"Decrypt".toList, none, none, ⟨false, ["b.alp".toList]⟩⟩
      [⟨"FOO".toList, none, none, ⟨false, ["x".toList]⟩⟩]
      (by decide) rfl⟩

/-- Host environment for the three-entry batch scenario. -/
def batchEnv : HostEnv :=
  ⟨some ⟨true, ["home".toList]⟩, some ⟨true, ["cfg".toList]⟩,
   some ⟨true, ["cache".toList]⟩, ⟨true, ["tmp".toList]⟩,
   ⟨true, ["work".toList]⟩⟩

/-- Batch entry 1: a well-formed ENCRYPT entry. -/
def batchEntry1 : Schematic :=
  ⟨"ENCRYPT".toList, none, none, ⟨false, ["a.txt".toList]⟩⟩

/-- Batch entry 2: a DECRYPT entry whose credential `xyz` is malformed
(not hex, and without the `#` delimiter). -/
def batchEntry2 : Schematic :=
  ⟨"DECRYPT".toList, none, some "xyz".toList, ⟨false, ["b.alp".toList]⟩⟩

/-- Batch entry 3: another well-formed ENCRYPT entry. -/
def batchEntry3 : Schematic :=
  ⟨"ENCRYPT".toList, none, none, ⟨false, ["c.txt".toList]⟩⟩

/-- C3 failing input. In the 3-entry manifest whose entry 2 carries the
malformed credential `xyz`, entry 2's `decrypt` panics (`xyz` fails hex
decoding under an `.expect`), the panic escapes the rayon closure, the
panic fuse stops the batch, and entry 3 — which on its own would be
processed fine — is never processed. The claimed isolation does not
hold. -/
theorem batch_malformed_credential_aborts :
    runBatchFused batchEnv [batchEntry1, batchEntry2, batchEntry3] =
      [some (.ok (.encrypted ⟨false, ["a.txt".toList]⟩)),
       some (.panicked .malformedKey),
       none] ∧
    processEntry batchEnv batchEntry3 =
      .ok (.encrypted ⟨false, ["c.txt".toList]⟩) := by
  refine ⟨rfl, rfl⟩

/-! ## Claim C5: the Codec

Modelled from the spec: the Codec's `compress`/`decompress` call the
gzip encoder/decoder of the external `flate2` crate, whose algorithm is
not part of this repository's source. Spec §4.2 admits "any correct
general-purpose compressor"; the model is an executable byte-oriented
run-length codec with the Codec's interface — `compress` emits
(count, byte) pairs with counts capped at 255 so the output stays
bytes, and `decompress` fails (`CodecError`) on truncated input.
-/

/-- Modelled from the spec: length of the initial run of the byte `b`
(capped by the fuel), together with the remainder of the list. -/
def takeRun (b : Nat) : Nat → List Nat → Nat × List Nat
  | _, [] => (0, [])
  | 0, l => (0, l)
  | cap + 1, c :: rest =>
    if c = b then
      ((takeRun b cap rest).1 + 1, (takeRun b cap rest).2)
    else (0, c :: rest)

theorem takeRun_spec (b : Nat) :
    ∀ (cap : Nat) (l : List Nat),
      List.replicate (takeRun b cap l).1 b ++ (takeRun b cap l).2 = l := by
  intro cap
  induction cap with
  | zero =>
    intro l
    cases l <;> simp [takeRun]
  | succ n ih =>
    intro l
    cases l with
    | nil => simp [takeRun]
    | cons c rest =>
      by_cases hc : c = b
      · simp only [takeRun, if_pos hc, List.replicate_succ, List.cons_append]
        rw [ih rest, hc]
      · simp [takeRun, hc]

theorem takeRun_length_le (b cap : Nat) (l : List Nat) :
    (takeRun b cap l).2.length ≤ l.length := by
  conv_rhs => rw [← takeRun_spec b cap l]
  simp

/-- Modelled from the spec: `compress` as a run-length coder emitting
(count, byte) pairs, counts between 1 and 255. -/
def compress : List Nat → List Nat
  | [] => []
  | b :: rest =>
    ((takeRun b 254 rest).1 + 1) :: b :: compress (takeRun b 254 rest).2
termination_by l => l.length
decreasing_by
  have h := takeRun_length_le b 254 rest
  simp only [List.length_cons]
  omega

/-- Modelled from the spec: `decompress` expands the (count, byte)
pairs and fails on truncated input. -/
def decompress : List Nat → Option (List Nat)
  | [] => some []
  | [_] => none
  | n :: b :: rest =>
    match decompress rest with
    | some t => some (List.replicate n b ++ t)
    | none => none

/-- C5. Round-trip law of the Codec: decompressing the compression of
any byte sequence returns exactly that sequence. -/
theorem decompress_compress (input : List Nat) :
    decompress (compress input) = some input := by
  have H : ∀ n, ∀ l : List Nat, l.length ≤ n →
      decompress (compress l) = some l := by
    intro n
    induction n with
    | zero =>
      intro l hl
      have hnil : l = [] := List.length_eq_zero.mp (Nat.le_zero.mp hl)
      subst hnil
      simp [compress, decompress]
    | succ n ih =>
      intro l hl
      cases l with
      | nil => simp [compress, decompress]
      | cons b rest =>
        have hlen := takeRun_length_le b 254 rest
        have hrest : (takeRun b 254 rest).2.length ≤ n := by
          simp only [List.length_cons] at hl
          omega
        have ihr := ih _ hrest
        simp only [compress, decompress]
        rw [ihr]
        simp only [Option.some.injEq, List.replicate_succ, List.cons_append,
          List.cons.injEq, true_and]
        exact takeRun_spec b 254 rest
  exact H input.length input le_rfl

end Alpaca
